import Mathlib

/-!
Verification of the ksecret secret-synchronisation tool.

This file shallowly embeds the core of the program:

* the value-format detector of `src/commands/sync.rs` (lines 73-113),
  which turns a raw secret value into the field map written to the
  cluster secret store;
* the TTL cache of `src/cache.rs`;
* the naming resolver of `src/config.rs` (`build_secret_name` /
  `parse_secret_name`);
* the synchronisation engine of `src/commands/sync.rs` (`execute`),
  modelled as a function of an oracle for the external collaborators
  (GCP secret store, Kubernetes cluster) that also returns the trace of
  collaborator calls it makes.

External library behaviour (the serde_json / serde_yaml parsers and
serialisers, chrono clocks) is modelled by explicit parameters or by
small model functions, each marked in its doc comment; the control flow
and data manipulation of the repository's own code is translated
statement by statement.
-/

/-! ## UTF-8 byte payloads

Rust `String::into_bytes` yields the UTF-8 encoding of the string.  We
model byte payloads as `List Nat` (each entry < 256). -/

/-- UTF-8 encoding of a single scalar value (model of Rust's `String`
byte representation for one `char`). -/
def utf8EncodeCh (c : Char) : List Nat :=
  let n := c.toNat
  if n < 0x80 then [n]
  else if n < 0x800 then
    [0xC0 + n / 64, 0x80 + n % 64]
  else if n < 0x10000 then
    [0xE0 + n / 4096, 0x80 + (n / 64) % 64, 0x80 + n % 64]
  else
    [0xF0 + n / 262144, 0x80 + (n / 4096) % 64, 0x80 + (n / 64) % 64, 0x80 + n % 64]

/-- The UTF-8 bytes of a string: model of Rust `str::as_bytes` /
`String::into_bytes`. -/
def utf8Bytes (s : String) : List Nat :=
  s.data.foldr (fun c acc => utf8EncodeCh c ++ acc) []

/-! ## FieldMap and the BTreeMap model

`sync.rs` collects fields in a `std::collections::BTreeMap<String, Vec<u8>>`.
A `BTreeMap` keeps its entries sorted by key; we model it as an
association list kept sorted by `btreeInsert`. -/

/-- The field map applied to a cluster secret: association list of
field name to byte payload, kept in `BTreeMap` (key-sorted) order. -/
abbrev FieldMap := List (String × List Nat)

/-- Strict lexicographic order on character lists by code point.  On
UTF-8 encoded strings this coincides with Rust's byte-wise `Ord` for
`String`, the order a Rust `BTreeMap<String, _>` keeps its keys in. -/
def charsLt : List Char → List Char → Bool
  | _, [] => false
  | [], _ :: _ => true
  | a :: as, b :: bs =>
      decide (a.toNat < b.toNat) || (decide (a.toNat = b.toNat) && charsLt as bs)

/-- Rust's `Ord` for `String`, on the model side. -/
def keyLt (a b : String) : Bool :=
  charsLt a.data b.data

/-- Insertion into the sorted association list modelling
`BTreeMap::insert`: replaces the value at an existing key, otherwise
inserts at the sorted position. -/
def btreeInsert (k : String) (v : List Nat) : FieldMap → FieldMap
  | [] => [(k, v)]
  | (a, b) :: rest =>
    if keyLt k a then (k, v) :: (a, b) :: rest
    else if k = a then (k, v) :: rest
    else (a, b) :: btreeInsert k v rest

/-- Lookup in a field map (first matching key). -/
def fmLookup (k : String) : FieldMap → Option (List Nat)
  | [] => none
  | (a, b) :: rest => if a = k then some b else fmLookup k rest

/-! ## JSON values

Model of `serde_json::Value`.  Numbers are represented by their
canonical decimal text (the text `Display` would print), since the
program never computes with them. -/

inductive Json where
  | null
  | bool (b : Bool)
  | num (lit : String)
  | str (s : String)
  | arr (elems : List Json)
  | obj (members : List (String × Json))

/-- JSON string escaping as performed by `serde_json` serialisation. -/
def jsonEscapeCh (c : Char) : String :=
  if c = '"' then "\\\""
  else if c = '\\' then "\\\\"
  else if c = '\n' then "\\n"
  else if c = '\r' then "\\r"
  else if c = '\t' then "\\t"
  else if c.toNat < 0x20 then
    "\\u00" ++ String.mk [(Nat.digitChar (c.toNat / 16)), (Nat.digitChar (c.toNat % 16))]
  else String.mk [c]

/-- A JSON string literal: quotes plus escaped content. -/
def jsonQuote (s : String) : String :=
  "\"" ++ s.data.foldr (fun c acc => jsonEscapeCh c ++ acc) "" ++ "\""

mutual

/-- Model of `serde_json`'s compact canonical serialisation
(`Value::to_string`). -/
def Json.toCanonical : Json → String
  | .null => "null"
  | .bool b => if b then "true" else "false"
  | .num lit => lit
  | .str s => jsonQuote s
  | .arr elems => "[" ++ Json.arrCanonical elems ++ "]"
  | .obj members => "\x7b" ++ Json.objCanonical members ++ "\x7d"

/-- Comma-separated serialisation of array elements. -/
def Json.arrCanonical : List Json → String
  | [] => ""
  | [x] => x.toCanonical
  | x :: y :: rest => x.toCanonical ++ "," ++ Json.arrCanonical (y :: rest)

/-- Comma-separated serialisation of object members. -/
def Json.objCanonical : List (String × Json) → String
  | [] => ""
  | [(k, v)] => jsonQuote k ++ ":" ++ v.toCanonical
  | (k, v) :: m :: rest =>
      jsonQuote k ++ ":" ++ v.toCanonical ++ "," ++ Json.objCanonical (m :: rest)

end

/-! ## YAML values

Model of `serde_yaml::Value`.  As with JSON, numbers carry their
canonical textual form.  (The rarely used `Tagged` variant of
`serde_yaml::Value` is omitted from the model; no claim involves it.) -/

inductive Yaml where
  | null
  | bool (b : Bool)
  | num (lit : String)
  | str (s : String)
  | seq (elems : List Yaml)
  | mapping (entries : List (Yaml × Yaml))

/-- Model of `serde_yaml::Value::as_str`: `some` exactly on the
`String` variant. -/
def Yaml.asStr : Yaml → Option String
  | .str s => some s
  | _ => none

/-- Whitespace as trimmed by Rust `str::trim` (ASCII fragment). -/
def isRustWs (c : Char) : Bool :=
  c = ' ' || c = '\n' || c = '\t' || c = '\r'

/-- Model of Rust `str::trim`: drops leading and trailing whitespace. -/
def rustTrim (s : String) : String :=
  String.mk (((s.data.dropWhile isRustWs).reverse.dropWhile isRustWs).reverse)

mutual

/-- Single-line (flow style) rendering of a YAML value, used by the
serialiser model for nested positions. -/
def Yaml.flow : Yaml → String
  | .null => "null"
  | .bool b => if b then "true" else "false"
  | .num lit => lit
  | .str s => s
  | .seq elems => "[" ++ Yaml.flowSeq elems ++ "]"
  | .mapping entries => "\x7b" ++ Yaml.flowMap entries ++ "\x7d"

/-- Comma-separated flow rendering of sequence elements. -/
def Yaml.flowSeq : List Yaml → String
  | [] => ""
  | [x] => x.flow
  | x :: y :: rest => x.flow ++ ", " ++ Yaml.flowSeq (y :: rest)

/-- Comma-separated flow rendering of mapping entries. -/
def Yaml.flowMap : List (Yaml × Yaml) → String
  | [] => ""
  | [(k, v)] => k.flow ++ ": " ++ v.flow
  | (k, v) :: m :: rest => k.flow ++ ": " ++ v.flow ++ ", " ++ Yaml.flowMap (m :: rest)

end

/-- Model of `serde_yaml::to_string` (external library): renders the
value followed by the terminating newline the library always emits.
Sequences and mappings are rendered one item per line in block style;
nested values are rendered in flow style -- a simplification of the
library's nested block layout that no claim depends on. -/
def yamlToStringTop (v : Yaml) : String :=
  match v with
  | .seq elems => String.join (elems.map (fun e => "- " ++ e.flow ++ "\n"))
  | .mapping entries =>
      String.join (entries.map (fun kv => kv.1.flow ++ ": " ++ kv.2.flow ++ "\n"))
  | other => other.flow ++ "\n"

/-! ## The value-format detector (sync.rs lines 73-113)

The detector is the body of the per-secret loop in
`commands::sync::execute` that decides whether a secret value is
multi-field.  The two parsers (`serde_json::from_str`,
`serde_yaml::from_str`) are external collaborators and enter the model
as function parameters. -/

/-- Field text chosen for one JSON object member:
`match v { Value::String(s) => s, _ => v.to_string() }`. -/
def jsonFieldString (v : Json) : String :=
  match v with
  | .str s => s
  | other => other.toCanonical

/-- Field text chosen for one YAML mapping value: strings pass
through, bools and numbers are stringified, anything else is
re-serialised via `serde_yaml::to_string` and trimmed. -/
def yamlFieldString (v : Yaml) : String :=
  match v with
  | .str s => s
  | .bool b => if b then "true" else "false"
  | .num lit => lit
  | other => rustTrim (yamlToStringTop other)

/-- The fields inserted for a parsed JSON object:
`for (k, v) in map { data.insert(k, v_str.into_bytes()); }`. -/
def jsonFields (members : List (String × Json)) : FieldMap :=
  members.foldl (fun d kv => btreeInsert kv.1 (utf8Bytes (jsonFieldString kv.2)) d) []

/-- The fields inserted for a parsed YAML mapping: only entries whose
key answers `as_str()` with `Some` are inserted. -/
def yamlFields (entries : List (Yaml × Yaml)) : FieldMap :=
  entries.foldl
    (fun d kv =>
      match kv.1.asStr with
      | some k => btreeInsert k (utf8Bytes (yamlFieldString kv.2)) d
      | none => d)
    []

/-- The value-format detector, `sync.rs` lines 73-113.  `jp` and `yp`
are the external JSON and YAML parsers (`serde_json::from_str`,
`serde_yaml::from_str`); `some` models `Ok`.  Mirrors the Rust
control flow: try JSON object, else YAML mapping, and fall back to the
single field `value` when no structured parse succeeded or the
structured field map came out empty. -/
def detect (jp : String → Option Json) (yp : String → Option Yaml)
    (value : String) : FieldMap :=
  let structured : Option FieldMap :=
    match jp value with
    | some (Json.obj members) => some (jsonFields members)
    | _ =>
      match yp value with
      | some (Yaml.mapping entries) => some (yamlFields entries)
      | _ => none
  match structured with
  | some data => if data.isEmpty then [("value", utf8Bytes value)] else data
  | none => [("value", utf8Bytes value)]

/-- Does an optional JSON parse result land in the `Object` arm of the
detector's `if let`? -/
def isJsonObject : Option Json → Bool
  | some (Json.obj _) => true
  | _ => false

/-- Does an optional YAML parse result land in the `Mapping` arm? -/
def isYamlMapping : Option Yaml → Bool
  | some (Yaml.mapping _) => true
  | _ => false

example :
    detect (fun _ => none) (fun _ => none) "hunter2"
      = [("value", utf8Bytes "hunter2")] := by decide

example :
    detect (fun _ => some (Json.obj [("user", Json.str "admin"), ("pass", Json.str "x")]))
      (fun _ => none) "\x7b\"user\":\"admin\",\"pass\":\"x\"\x7d"
      = [("pass", utf8Bytes "x"), ("user", utf8Bytes "admin")] := by decide

/-! ## The local TTL cache (src/cache.rs)

`Cache` wraps a `HashMap<String, CacheEntry>`; we model the hash map as
an association list with `HashMap` semantics (at most one live binding
per key; `insert` replaces in place).  `chrono::DateTime<Utc>` instants
are modelled as integer nanosecond timestamps, the precision chrono
stores; `Utc::now()` is an external input and enters `get`/`set` as an
explicit `now` argument. -/

/-- src/cache.rs: `const DEFAULT_TTL_SECONDS: i64 = 300`. -/
def DEFAULT_TTL_SECONDS : Int := 300

/-- Nanoseconds per second, the resolution of `chrono::DateTime`. -/
def nsPerSecond : Int := 1000000000

/-- `Duration::seconds(DEFAULT_TTL_SECONDS)` in nanosecond ticks. -/
def ttlNs : Int := DEFAULT_TTL_SECONDS * nsPerSecond

/-- One cache entry: stored value and expiry instant
(`expires_at: DateTime<Utc>`). -/
structure CacheEntry where
  value : String
  expires_at : Int
deriving DecidableEq

/-- Model of `HashMap::insert`: replace the binding in place if the key
is present, otherwise add it. -/
def hmInsert (k : String) (v : CacheEntry) :
    List (String × CacheEntry) → List (String × CacheEntry)
  | [] => [(k, v)]
  | (a, b) :: rest => if a = k then (k, v) :: rest else (a, b) :: hmInsert k v rest

/-- Model of `HashMap::get`. -/
def hmGet (k : String) : List (String × CacheEntry) → Option CacheEntry
  | [] => none
  | (a, b) :: rest => if a = k then some b else hmGet k rest

/-- Model of `HashMap::remove`. -/
def hmRemove (k : String) : List (String × CacheEntry) → List (String × CacheEntry)
  | [] => []
  | (a, b) :: rest => if a = k then rest else (a, b) :: hmRemove k rest

/-- The cache structure of src/cache.rs. -/
structure Cache where
  entries : List (String × CacheEntry)
deriving DecidableEq

/-- `Cache::get` (src/cache.rs lines 53-61): key is
`format!("{}:{}", env, name)`; the entry is served only while
`entry.expires_at > Utc::now()`. -/
def Cache.get (c : Cache) (now : Int) (env name : String) : Option String :=
  let key := env ++ ":" ++ name
  match hmGet key c.entries with
  | some entry => if now < entry.expires_at then some entry.value else none
  | none => none

/-- `Cache::set` (src/cache.rs lines 63-72): stamps
`expires_at = Utc::now() + Duration::seconds(DEFAULT_TTL_SECONDS)`. -/
def Cache.set (c : Cache) (now : Int) (env name value : String) : Cache :=
  let key := env ++ ":" ++ name
  { entries := hmInsert key { value := value, expires_at := now + ttlNs } c.entries }

/-- `Cache::delete` (src/cache.rs lines 74-77). -/
def Cache.delete (c : Cache) (env name : String) : Cache :=
  let key := env ++ ":" ++ name
  { entries := hmRemove key c.entries }

/-- `Cache::clear` (src/cache.rs lines 79-81). -/
def Cache.clear (_c : Cache) : Cache :=
  { entries := [] }

/-! ## The naming resolver (src/config.rs) -/

/-- The configuration record of src/config.rs (`gcp_project_id`,
`secret_prefix`). -/
structure Config where
  gcp_project_id : String
  secretPfx : String
deriving DecidableEq

/-- `Config::build_secret_name`:
`format!("{}-{}-{}", self.secret_prefix, environment, name)`. -/
def build_secret_name (cfg : Config) (environment name : String) : String :=
  cfg.secretPfx ++ "-" ++ environment ++ "-" ++ name

/-- Model of `str::starts_with` plus the slice `&full_name[prefix.len()..]`
taken together: `some` of the remainder when the pattern is an initial
segment, else `none`. -/
def stripPfxChars : List Char → List Char → Option (List Char)
  | [], s => some s
  | _ :: _, [] => none
  | p :: ps, c :: cs => if p = c then stripPfxChars ps cs else none

/-- Model of Rust `str::splitn(2, '-')`: split at the first `'-'` if
there is one.  `splitn` yields two parts exactly when the separator
occurs, which is the `parts.len() == 2` case of `parse_secret_name`. -/
def splitOnceDash : List Char → Option (List Char × List Char)
  | [] => none
  | c :: rest =>
    if c = '-' then some ([], rest)
    else (splitOnceDash rest).map (fun p => (c :: p.1, p.2))

/-- `Config::parse_secret_name` (src/config.rs lines 85-98): strip
`"{secret_prefix}-"`, then `splitn(2, '-')`; answer `Some` exactly when
that gives two parts. -/
def parse_secret_name (cfg : Config) (full_name : String) : Option (String × String) :=
  match stripPfxChars (cfg.secretPfx ++ "-").data full_name.data with
  | none => none
  | some remainder =>
    match splitOnceDash remainder with
    | some (a, b) => some (String.mk a, String.mk b)
    | none => none

example :
    parse_secret_name ⟨"proj", "k8s"⟩ (build_secret_name ⟨"proj", "k8s"⟩ "dev" "db-password")
      = some ("dev", "db-password") := by decide

/-! ## The synchronisation engine (src/commands/sync.rs)

`execute` talks to the two collaborators through `World`, an oracle
fixing the responses of the external services for one run, and the
model returns, next to the `Result`, the trace of collaborator calls
made, in order.  `Except.error` carries the `anyhow` error message. -/

/-- One collaborator call made by the engine.  `applySecret` is the
single `KubeClient::apply_secret` call (which internally performs the
delete-then-recreate pair against the cluster). -/
inductive Event where
  | namespaceCheck (ns : String)
  | listSecrets (environment : String)
  | getSecret (environment name : String)
  | applySecret (ns name : String) (data : FieldMap)
deriving DecidableEq

/-- Errors surfaced by a sync run, by source (src/commands/sync.rs
lines 39-41, 44, 67-70, 116-119). -/
inductive SyncError where
  | namespaceCheckFailed (msg : String)
  | namespaceNotFound (ns : String)
  | listFailed (msg : String)
  | getFailed (name msg : String)
  | applyFailed (name msg : String)
deriving DecidableEq

/-- Oracle for one run: responses of the external collaborators.
`listSecrets` models `SecretManagerClient::list_secrets`, which follows
pagination to exhaustion and returns the prefix-stripped short names;
`getSecret`/`applySecret` model the per-secret remote read and cluster
write; `jp`/`yp` are the serde parsers used by the detector. -/
structure World where
  namespaceExists : String → Except String Bool
  listSecrets : String → Except String (List String)
  getSecret : String → String → Except String String
  applySecret : String → String → FieldMap → Except String Unit
  jp : String → Option Json
  yp : String → Option Yaml

/-- The per-secret loop of `execute` (src/commands/sync.rs lines
58-122): skip on dry run, else fetch the value, run the detector and
apply the field map, aborting on the first error. -/
def syncLoop (w : World) (ns environment : String) (dry_run : Bool) :
    List String → Except SyncError Unit × List Event
  | [] => (Except.ok (), [])
  | name :: rest =>
    if dry_run then
      syncLoop w ns environment dry_run rest
    else
      match w.getSecret environment name with
      | Except.error e => (Except.error (SyncError.getFailed name e), [Event.getSecret environment name])
      | Except.ok value =>
        let data := detect w.jp w.yp value
        match w.applySecret ns name data with
        | Except.error e =>
            (Except.error (SyncError.applyFailed name e),
             [Event.getSecret environment name, Event.applySecret ns name data])
        | Except.ok _ =>
            let next := syncLoop w ns environment dry_run rest
            (next.1, Event.getSecret environment name :: Event.applySecret ns name data :: next.2)

/-- `commands::sync::execute` (src/commands/sync.rs): resolve the
namespace, check it exists, list the environment's secrets, and run the
per-secret loop.  The returned list is the ordered trace of
collaborator calls. -/
def executeSync (w : World) (environment : String) (nsOverride : Option String)
    (dry_run : Bool) : Except SyncError Unit × List Event :=
  let ns := nsOverride.getD environment
  match w.namespaceExists ns with
  | Except.error e => (Except.error (SyncError.namespaceCheckFailed e), [Event.namespaceCheck ns])
  | Except.ok false => (Except.error (SyncError.namespaceNotFound ns), [Event.namespaceCheck ns])
  | Except.ok true =>
    match w.listSecrets environment with
    | Except.error e =>
        (Except.error (SyncError.listFailed e),
         [Event.namespaceCheck ns, Event.listSecrets environment])
    | Except.ok secrets =>
      if secrets.isEmpty then
        (Except.ok (), [Event.namespaceCheck ns, Event.listSecrets environment])
      else
        let next := syncLoop w ns environment dry_run secrets
        (next.1, Event.namespaceCheck ns :: Event.listSecrets environment :: next.2)

/-- The field map a given secret would be applied with: the detector
run on the fetched value.  Used to phrase trace equalities. -/
def itemData (w : World) (environment name : String) : FieldMap :=
  detect w.jp w.yp ((w.getSecret environment name).toOption.getD "")

/-- A secret whose fetch and apply both succeed in world `w`. -/
def itemSucceeds (w : World) (environment ns name : String) : Prop :=
  ∃ v, w.getSecret environment name = Except.ok v ∧
    w.applySecret ns name (detect w.jp w.yp v) = Except.ok ()

/-- A secret whose processing fails: either the remote fetch errors, or
the fetch succeeds and the cluster apply errors. -/
def itemFails (w : World) (environment ns name : String) : Prop :=
  (∃ e, w.getSecret environment name = Except.error e) ∨
  (∃ v e, w.getSecret environment name = Except.ok v ∧
    w.applySecret ns name (detect w.jp w.yp v) = Except.error e)

/-! ## Order and insertion lemmas -/

/-- Characters with equal code points are equal. -/
theorem chToNat_inj {a b : Char} (h : a.toNat = b.toNat) : a = b :=
  Char.ext (UInt32.ext h)

/-- Strings with equal character data are equal. -/
theorem strData_inj {s t : String} (h : s.data = t.data) : s = t := by
  cases s; cases t; exact congrArg String.mk h

/-- `charsLt` is transitive. -/
theorem charsLt_trans :
    ∀ {a b c : List Char}, charsLt a b = true → charsLt b c = true → charsLt a c = true
  | _, [], _, hab, _ => by simp [charsLt] at hab
  | [], _ :: _, [], _, hbc => by simp [charsLt] at hbc
  | [], _ :: _, _ :: _, _, _ => by simp [charsLt]
  | _ :: _, _ :: _, [], _, hbc => by simp [charsLt] at hbc
  | x :: xs, y :: ys, z :: zs, hab, hbc => by
    simp only [charsLt, Bool.or_eq_true, Bool.and_eq_true, decide_eq_true_eq] at hab hbc ⊢
    rcases hab with h1 | ⟨h1, h1'⟩ <;> rcases hbc with h2 | ⟨h2, h2'⟩
    · exact Or.inl (Nat.lt_trans h1 h2)
    · exact Or.inl (h2 ▸ h1)
    · exact Or.inl (h1 ▸ h2)
    · exact Or.inr ⟨h1.trans h2, charsLt_trans h1' h2'⟩

/-- Totality: if `a` is neither below nor equal to `b`, then `b` is
below `a`. -/
theorem charsLt_flip :
    ∀ {a b : List Char}, charsLt a b = false → a ≠ b → charsLt b a = true
  | [], [], _, hne => absurd rfl hne
  | [], _ :: _, hlt, _ => by simp [charsLt] at hlt
  | _ :: _, [], _, _ => by simp [charsLt]
  | x :: xs, y :: ys, hlt, hne => by
    simp only [charsLt, Bool.or_eq_false_iff, Bool.and_eq_false_iff,
      decide_eq_false_iff_not, Bool.or_eq_true, Bool.and_eq_true, decide_eq_true_eq] at hlt ⊢
    rcases hlt with ⟨h1, h2⟩
    rcases h2 with h2 | h2
    · left
      omega
    · rcases Nat.lt_trichotomy x.toNat y.toNat with h | h | h
      · exact absurd h h1
      · have hxy : x = y := chToNat_inj h
        subst hxy
        have hxs : xs ≠ ys := by
          intro hh
          exact hne (hh ▸ rfl)
        exact Or.inr ⟨rfl, charsLt_flip h2 hxs⟩
      · exact Or.inl h

/-- Totality for the string key order. -/
theorem keyLt_flip {a b : String} (h : keyLt a b = false) (hne : a ≠ b) :
    keyLt b a = true := by
  refine charsLt_flip h fun hd => hne (strData_inj hd)

/-- Transitivity for the string key order. -/
theorem keyLt_trans {a b c : String} (h1 : keyLt a b = true) (h2 : keyLt b c = true) :
    keyLt a c = true :=
  charsLt_trans h1 h2

/-- The key ordering invariant of the `BTreeMap` model: entries are
strictly increasing in key. -/
def fmSorted (m : FieldMap) : Prop :=
  List.Pairwise (fun p q : String × List Nat => keyLt p.1 q.1 = true) m

/-- Every element of `btreeInsert k v m` is the inserted pair or an
element of `m`. -/
theorem btreeInsert_mem {k : String} {v : List Nat} :
    ∀ {m : FieldMap} {x}, x ∈ btreeInsert k v m → x = (k, v) ∨ x ∈ m
  | [], x, hx => by simpa [btreeInsert] using hx
  | (a, b) :: rest, x, hx => by
    by_cases h1 : keyLt k a = true
    · rw [btreeInsert, if_pos h1] at hx
      simpa using hx
    · by_cases h2 : k = a
      · rw [btreeInsert, if_neg h1, if_pos h2] at hx
        rcases List.mem_cons.mp hx with hx | hx
        · exact Or.inl hx
        · exact Or.inr (List.mem_cons_of_mem _ hx)
      · rw [btreeInsert, if_neg h1, if_neg h2] at hx
        rcases List.mem_cons.mp hx with hx | hx
        · exact Or.inr (by simp [hx])
        · rcases btreeInsert_mem hx with h | h
          · exact Or.inl h
          · exact Or.inr (List.mem_cons_of_mem _ h)

/-- Insertion of a fresh key is, up to ordering, a `cons`. -/
theorem btreeInsert_perm {k : String} {v : List Nat} :
    ∀ {m : FieldMap}, k ∉ m.map Prod.fst → List.Perm (btreeInsert k v m) ((k, v) :: m)
  | [], _ => by simp [btreeInsert]
  | (a, b) :: rest, hk => by
    have hka : k ≠ a := by
      intro h
      exact hk (by simp [h])
    by_cases h1 : keyLt k a = true
    · rw [btreeInsert, if_pos h1]
    · rw [btreeInsert, if_neg h1, if_neg hka]
      have hrest : k ∉ rest.map Prod.fst := by
        intro h
        exact hk (by simp [h])
      exact ((btreeInsert_perm hrest).cons (a, b)).trans (List.Perm.swap (k, v) (a, b) rest)

/-- Insertion preserves the sortedness invariant. -/
theorem btreeInsert_sorted {k : String} {v : List Nat} :
    ∀ {m : FieldMap}, fmSorted m → fmSorted (btreeInsert k v m)
  | [], _ => by simp [btreeInsert, fmSorted]
  | (a, b) :: rest, hs => by
    rcases (List.pairwise_cons.mp hs) with ⟨ha, hrest⟩
    by_cases h1 : keyLt k a = true
    · rw [fmSorted, btreeInsert, if_pos h1]
      refine List.Pairwise.cons ?_ hs
      intro p hp
      rcases List.mem_cons.mp hp with hp | hp
      · simpa [hp] using h1
      · exact keyLt_trans h1 (ha p hp)
    · by_cases h2 : k = a
      · rw [fmSorted, btreeInsert, if_neg h1, if_pos h2]
        refine List.Pairwise.cons ?_ hrest
        intro p hp
        rw [h2]
        exact ha p hp
      · rw [fmSorted, btreeInsert, if_neg h1, if_neg h2]
        have hak : keyLt a k = true :=
          keyLt_flip (by simpa using h1) h2
        refine List.Pairwise.cons ?_ (btreeInsert_sorted hrest)
        intro p hp
        rcases btreeInsert_mem hp with hp | hp
        · simpa [hp] using hak
        · exact ha p hp

/-- Folding `btreeInsert` over a list of prepared pairs: the common
shape of the two field-collection loops. -/
def insertAll (ps : List (String × List Nat)) (init : FieldMap) : FieldMap :=
  ps.foldl (fun d p => btreeInsert p.1 p.2 d) init

/-- The pair inserted for one JSON object member. -/
def jsonEntryField (kv : String × Json) : String × List Nat :=
  (kv.1, utf8Bytes (jsonFieldString kv.2))

/-- The pair inserted for one YAML mapping entry, `none` when the
entry's key is not a string scalar and the loop skips it. -/
def yamlEntryField (kv : Yaml × Yaml) : Option (String × List Nat) :=
  kv.1.asStr.map (fun k => (k, utf8Bytes (yamlFieldString kv.2)))

/-- The JSON loop is `insertAll` of the prepared member pairs. -/
theorem jsonFields_eq (members : List (String × Json)) :
    jsonFields members = insertAll (members.map jsonEntryField) [] := by
  rw [jsonFields, insertAll, List.foldl_map]
  rfl

/-- The YAML loop is `insertAll` of the prepared entry pairs, the
non-string-keyed entries dropped. -/
theorem yamlFields_eq (entries : List (Yaml × Yaml)) :
    yamlFields entries = insertAll (entries.filterMap yamlEntryField) [] := by
  rw [yamlFields, insertAll]
  suffices h : ∀ init : FieldMap,
      entries.foldl
        (fun d kv =>
          match kv.1.asStr with
          | some k => btreeInsert k (utf8Bytes (yamlFieldString kv.2)) d
          | none => d) init
      = (entries.filterMap yamlEntryField).foldl (fun d p => btreeInsert p.1 p.2 d) init by
    exact h []
  induction entries with
  | nil => intro init; rfl
  | cons kv rest ih =>
    intro init
    rcases hk : kv.1.asStr with _ | k <;>
      simp [List.filterMap_cons, yamlEntryField, hk, ih]

/-- `insertAll` with globally fresh keys is, up to ordering, list
concatenation. -/
theorem insertAll_perm :
    ∀ {ps : List (String × List Nat)} {init : FieldMap},
      (ps.map Prod.fst ++ init.map Prod.fst).Nodup →
      List.Perm (insertAll ps init) (ps ++ init)
  | [], init, _ => by simp [insertAll]
  | p :: rest, init, h => by
    have hp : p.1 ∉ init.map Prod.fst := by
      have := (List.nodup_append.mp h).2.2
      intro hmem
      exact this (by simp) hmem
    have hperm : List.Perm (btreeInsert p.1 p.2 init) (p :: init) := by
      simpa using btreeInsert_perm hp
    have hkeys : List.Perm ((btreeInsert p.1 p.2 init).map Prod.fst)
        ((p :: init).map Prod.fst) := hperm.map Prod.fst
    have hnodup : (rest.map Prod.fst ++ (btreeInsert p.1 p.2 init).map Prod.fst).Nodup := by
      refine (List.Perm.nodup_iff (List.Perm.append_left _ hkeys)).mpr ?_
      have : (p.1 :: (rest.map Prod.fst ++ init.map Prod.fst)).Nodup := by
        simpa [List.nodup_append, or_comm, and_assoc, and_comm, and_left_comm] using h
      simpa [List.nodup_append, or_comm, and_assoc, and_comm, and_left_comm] using this
    have ih := insertAll_perm hnodup
    exact (ih.trans (List.Perm.append_left rest hperm)).trans List.perm_middle

/-- `insertAll` preserves the sortedness invariant. -/
theorem insertAll_sorted :
    ∀ {ps : List (String × List Nat)} {init : FieldMap},
      fmSorted init → fmSorted (insertAll ps init) := by
  intro ps
  induction ps with
  | nil => intro init h; exact h
  | cons p rest ih => intro init h; exact ih (btreeInsert_sorted h)

/-- Unfolding of the detector when the JSON parse yields an object. -/
theorem detect_of_jsonObj {jp : String → Option Json} {yp : String → Option Yaml}
    {raw : String} {members : List (String × Json)}
    (hparse : jp raw = some (Json.obj members)) :
    detect jp yp raw
      = if (jsonFields members).isEmpty then [("value", utf8Bytes raw)]
        else jsonFields members := by
  unfold detect
  rw [hparse]

/-- Unfolding of the detector when the JSON parse does not yield an
object: control moves to the YAML arm. -/
theorem detect_notJsonObj {jp : String → Option Json} {yp : String → Option Yaml}
    {raw : String} (hj : isJsonObject (jp raw) = false) :
    detect jp yp raw
      = match yp raw with
        | some (Yaml.mapping entries) =>
            if (yamlFields entries).isEmpty then [("value", utf8Bytes raw)]
            else yamlFields entries
        | _ => [("value", utf8Bytes raw)] := by
  unfold detect
  cases hjp : jp raw with
  | none => cases hyp : yp raw with
    | none => rfl
    | some y => cases y <;> rfl
  | some j =>
    rw [hjp] at hj
    cases j
    case obj m => exact absurd hj (by simp [isJsonObject])
    all_goals
      cases hyp : yp raw with
      | none => rfl
      | some y => cases y <;> rfl

/-- Unfolding of the detector when the YAML arm is reached and parses a
mapping. -/
theorem detect_of_yamlMapping {jp : String → Option Json} {yp : String → Option Yaml}
    {raw : String} {entries : List (Yaml × Yaml)}
    (hj : isJsonObject (jp raw) = false) (hy : yp raw = some (Yaml.mapping entries)) :
    detect jp yp raw
      = if (yamlFields entries).isEmpty then [("value", utf8Bytes raw)]
        else yamlFields entries := by
  rw [detect_notJsonObj hj, hy]

/-- The final fallback guard never produces an empty map. -/
theorem ifFallback_ne_nil (d : FieldMap) (raw : String) :
    (if d.isEmpty then [("value", utf8Bytes raw)] else d) ≠ [] := by
  cases d <;> simp

/-! ## Claim theorems: the value-format detector -/

/-- Concrete JSON parser response for the spec's scenario
`{"user":"admin","pass":"x"}`, in document (object key) order, as a
parser with the `preserve_order` feature would report it. -/
def jpUserPass : String → Option Json :=
  fun _ => some (Json.obj [("user", Json.str "admin"), ("pass", Json.str "x")])

/-- A YAML parser that fails on every input. -/
def ypNone : String → Option Yaml :=
  fun _ => none

/-- The raw text of the spec's concrete JSON scenario. -/
def rawUserPass : String :=
  "\x7b\"user\":\"admin\",\"pass\":\"x\"\x7d"

/-- C1, counterexample: for the remote value `{"user":"admin","pass":"x"}`
the detector returns the two fields in `BTreeMap` (lexicographic key)
order `pass, user`, not in object key order `user, pass` as the claim
states. -/
theorem detect_json_order_counterexample :
    detect jpUserPass ypNone rawUserPass
        = [("pass", utf8Bytes "x"), ("user", utf8Bytes "admin")] ∧
      detect jpUserPass ypNone rawUserPass
        ≠ [("user", utf8Bytes "admin"), ("pass", utf8Bytes "x")] := by
  decide

/-- C1 (amended): for every secret value parsing as a nonempty JSON
object (whose keys, as in any `serde_json` object, are distinct), the
detector produces exactly one field per object member -- string members
passed through as UTF-8 bytes, non-string members stringified to their
canonical JSON text -- with the object's key set preserved exactly;
the fields are kept in lexicographic key order, not object key order. -/
theorem detect_json_object_fields (jp : String → Option Json) (yp : String → Option Yaml)
    (raw : String) (members : List (String × Json))
    (hparse : jp raw = some (Json.obj members))
    (hnodup : (members.map Prod.fst).Nodup)
    (hne : members ≠ []) :
    List.Perm (detect jp yp raw) (members.map jsonEntryField) ∧
    fmSorted (detect jp yp raw) := by
  have hkeys : ((members.map jsonEntryField).map Prod.fst
      ++ ([] : FieldMap).map Prod.fst).Nodup := by
    simpa [List.map_map, Function.comp_def, jsonEntryField] using hnodup
  have hperm : List.Perm (jsonFields members) (members.map jsonEntryField) := by
    rw [jsonFields_eq]
    simpa using insertAll_perm hkeys
  have hnonempty : (jsonFields members).isEmpty = false := by
    have hlen := hperm.length_eq
    cases hm : jsonFields members with
    | nil =>
      rw [hm] at hlen
      cases members with
      | nil => exact absurd rfl hne
      | cons a rest => simp at hlen
    | cons a rest => simp
  have hdet : detect jp yp raw = jsonFields members := by
    rw [detect_of_jsonObj hparse, hnonempty]
    simp
  rw [hdet]
  refine ⟨hperm, ?_⟩
  rw [jsonFields_eq]
  exact insertAll_sorted List.Pairwise.nil

/-- Witness for the amended C1 at the spec's concrete scenario. -/
theorem detect_json_object_fields_witness :
    jpUserPass rawUserPass
        = some (Json.obj [("user", Json.str "admin"), ("pass", Json.str "x")]) ∧
      ((([("user", Json.str "admin"), ("pass", Json.str "x")]
            : List (String × Json)).map Prod.fst).Nodup) ∧
      ([("user", Json.str "admin"), ("pass", Json.str "x")] ≠ []) ∧
      (List.Perm (detect jpUserPass ypNone rawUserPass)
          ([("user", Json.str "admin"), ("pass", Json.str "x")].map jsonEntryField) ∧
        fmSorted (detect jpUserPass ypNone rawUserPass)) :=
  ⟨rfl, by decide, by simp,
    detect_json_object_fields jpUserPass ypNone rawUserPass
      [("user", Json.str "admin"), ("pass", Json.str "x")] rfl (by decide) (by simp)⟩

/-- A JSON parser that fails on every input. -/
def jpNone : String → Option Json :=
  fun _ => none

/-- Concrete YAML parser response for `"1: a\n2: b"`: a mapping whose
two keys are number scalars, as `serde_yaml` parses them. -/
def ypNumKeys : String → Option Yaml :=
  fun _ => some (Yaml.mapping [(Yaml.num "1", Yaml.str "a"), (Yaml.num "2", Yaml.str "b")])

/-- C2, counterexample: the value `"1: a\n2: b"` parses as a YAML
mapping with two entries, but because neither key is a string scalar
the loop inserts nothing and the detector falls back to the single
field `value` -- not one field per mapping entry. -/
theorem detect_yaml_nonstring_keys_counterexample :
    detect jpNone ypNumKeys "1: a\n2: b"
        = [("value", utf8Bytes "1: a\n2: b")] ∧
      (detect jpNone ypNumKeys "1: a\n2: b").length
        ≠ [(Yaml.num "1", Yaml.str "a"), (Yaml.num "2", Yaml.str "b")].length := by
  decide

/-- C2 (amended): for every secret value that does not parse as a JSON
object but parses as a YAML mapping, the detector produces one field
per mapping entry whose key is a string scalar (entries with
non-string keys are skipped; if every entry is skipped the single-field
fallback applies): string, bool and number scalar values are
stringified in a fixed locale-independent format, and any other value
is re-serialised to canonical text and trimmed of its trailing line
terminator.  Fields are kept in lexicographic key order. -/
theorem detect_yaml_mapping_fields (jp : String → Option Json) (yp : String → Option Yaml)
    (raw : String) (entries : List (Yaml × Yaml))
    (hj : isJsonObject (jp raw) = false)
    (hy : yp raw = some (Yaml.mapping entries))
    (hnodup : ((entries.filterMap yamlEntryField).map Prod.fst).Nodup)
    (hne : entries.filterMap yamlEntryField ≠ []) :
    List.Perm (detect jp yp raw) (entries.filterMap yamlEntryField) ∧
    fmSorted (detect jp yp raw) := by
  have hkeys : ((entries.filterMap yamlEntryField).map Prod.fst
      ++ ([] : FieldMap).map Prod.fst).Nodup := by
    simpa using hnodup
  have hperm : List.Perm (yamlFields entries) (entries.filterMap yamlEntryField) := by
    rw [yamlFields_eq]
    simpa using insertAll_perm hkeys
  have hnonempty : (yamlFields entries).isEmpty = false := by
    have hlen := hperm.length_eq
    cases hm : yamlFields entries with
    | nil =>
      rw [hm] at hlen
      cases hf : entries.filterMap yamlEntryField with
      | nil => exact absurd hf hne
      | cons a rest => rw [hf] at hlen; simp at hlen
    | cons a rest => simp
  have hdet : detect jp yp raw = yamlFields entries := by
    rw [detect_of_yamlMapping hj hy, hnonempty]
    simp
  rw [hdet]
  refine ⟨hperm, ?_⟩
  rw [yamlFields_eq]
  exact insertAll_sorted List.Pairwise.nil

/-- Concrete YAML parser response for `"user: admin\nport: 8080\nextra:\n- a\n- b"`;
the nested sequence exercises the complex-value re-serialisation. -/
def ypMixed : String → Option Yaml :=
  fun _ => some (Yaml.mapping
    [(Yaml.str "user", Yaml.str "admin"),
     (Yaml.str "port", Yaml.num "8080"),
     (Yaml.str "extra", Yaml.seq [Yaml.str "a", Yaml.str "b"])])

/-- Witness for the amended C2 on a mixed scalar/complex mapping. -/
theorem detect_yaml_mapping_fields_witness :
    isJsonObject (jpNone "user: admin\nport: 8080\nextra:\n- a\n- b") = false ∧
      ypMixed "user: admin\nport: 8080\nextra:\n- a\n- b"
        = some (Yaml.mapping
            [(Yaml.str "user", Yaml.str "admin"),
             (Yaml.str "port", Yaml.num "8080"),
             (Yaml.str "extra", Yaml.seq [Yaml.str "a", Yaml.str "b"])]) ∧
      ((([(Yaml.str "user", Yaml.str "admin"),
          (Yaml.str "port", Yaml.num "8080"),
          (Yaml.str "extra", Yaml.seq [Yaml.str "a", Yaml.str "b"])].filterMap
            yamlEntryField).map Prod.fst).Nodup) ∧
      ([(Yaml.str "user", Yaml.str "admin"),
        (Yaml.str "port", Yaml.num "8080"),
        (Yaml.str "extra", Yaml.seq [Yaml.str "a", Yaml.str "b"])].filterMap
          yamlEntryField ≠ []) ∧
      (List.Perm (detect jpNone ypMixed "user: admin\nport: 8080\nextra:\n- a\n- b")
          ([(Yaml.str "user", Yaml.str "admin"),
            (Yaml.str "port", Yaml.num "8080"),
            (Yaml.str "extra", Yaml.seq [Yaml.str "a", Yaml.str "b"])].filterMap
              yamlEntryField) ∧
        fmSorted (detect jpNone ypMixed "user: admin\nport: 8080\nextra:\n- a\n- b")) :=
  ⟨rfl, rfl, by decide, by decide,
    detect_yaml_mapping_fields jpNone ypMixed "user: admin\nport: 8080\nextra:\n- a\n- b"
      [(Yaml.str "user", Yaml.str "admin"),
       (Yaml.str "port", Yaml.num "8080"),
       (Yaml.str "extra", Yaml.seq [Yaml.str "a", Yaml.str "b"])]
      rfl rfl (by decide) (by decide)⟩

/-- C3: whenever the value parses as neither a JSON object nor a YAML
mapping, or its structured parse yields zero fields (an empty JSON
object, or a YAML mapping none of whose entries has a string-scalar
key), the detector discards any partial result and returns exactly the
single-field map `value ↦ utf8Bytes raw`. -/
theorem detect_fallback (jp : String → Option Json) (yp : String → Option Yaml)
    (raw : String)
    (h : (isJsonObject (jp raw) = false ∧ isYamlMapping (yp raw) = false)
       ∨ jp raw = some (Json.obj [])
       ∨ (isJsonObject (jp raw) = false ∧
           ∃ entries, yp raw = some (Yaml.mapping entries)
             ∧ entries.filterMap yamlEntryField = [])) :
    detect jp yp raw = [("value", utf8Bytes raw)] := by
  rcases h with ⟨hj, hy⟩ | hj | ⟨hj, entries, hy, hz⟩
  · rw [detect_notJsonObj hj]
    cases hyp : yp raw with
    | none => rfl
    | some y =>
      cases y <;> try rfl
      case mapping entries =>
        rw [hyp] at hy
        simp [isYamlMapping] at hy
  · rw [detect_of_jsonObj hj]
    simp [jsonFields, insertAll]
  · rw [detect_of_yamlMapping hj hy]
    have : yamlFields entries = [] := by
      rw [yamlFields_eq, hz]
      rfl
    rw [this]
    simp

/-- Witness for C3: the spec's scalar scenario `"hunter2"`, which
parses as a YAML string scalar and fails JSON parsing. -/
theorem detect_fallback_witness :
    ((isJsonObject (jpNone "hunter2") = false ∧
        isYamlMapping ((fun _ => some (Yaml.str "hunter2")) "hunter2") = false)
      ∨ jpNone "hunter2" = some (Json.obj [])
      ∨ (isJsonObject (jpNone "hunter2") = false ∧
          ∃ entries, (fun _ : String => some (Yaml.str "hunter2")) "hunter2"
              = some (Yaml.mapping entries)
            ∧ entries.filterMap yamlEntryField = [])) ∧
      detect jpNone (fun _ => some (Yaml.str "hunter2")) "hunter2"
        = [("value", utf8Bytes "hunter2")] :=
  ⟨Or.inl ⟨rfl, rfl⟩,
    detect_fallback jpNone (fun _ => some (Yaml.str "hunter2")) "hunter2"
      (Or.inl ⟨rfl, rfl⟩)⟩

/-- C4: the detector is total -- it is a function defined on every
string, every parser behaviour included -- and the field map it
returns is never empty: every failure or degenerate path collapses to
the single `value` field. -/
theorem detect_never_empty (jp : String → Option Json) (yp : String → Option Yaml)
    (raw : String) : detect jp yp raw ≠ [] := by
  cases hjp : jp raw with
  | some j =>
    cases j
    case obj members =>
      rw [detect_of_jsonObj hjp]
      exact ifFallback_ne_nil _ _
    all_goals
      rw [detect_notJsonObj (by simp [isJsonObject, hjp])]
      cases hyp : yp raw with
      | none => simp
      | some y =>
        cases y <;> try simp
        all_goals
          rename_i entries
          cases h : yamlFields entries <;> simp [h]
  | none =>
    rw [detect_notJsonObj (by simp [isJsonObject, hjp])]
    cases hyp : yp raw with
    | none => simp
    | some y =>
      cases y <;> try simp
      all_goals
        rename_i entries
        cases h : yamlFields entries <;> simp [h]

/-! ## Claim theorems: the TTL cache -/

/-- Looking up the key just inserted yields the inserted entry. -/
theorem hmGet_insert (k : String) (v : CacheEntry) :
    ∀ m : List (String × CacheEntry), hmGet k (hmInsert k v m) = some v
  | [] => by simp [hmInsert, hmGet]
  | (a, b) :: rest => by
    by_cases h : a = k
    · simp [hmInsert, hmGet, h]
    · simp [hmInsert, hmGet, h, hmGet_insert k v rest]

/-- A key absent from the association list is not found. -/
theorem hmGet_not_mem {k : String} :
    ∀ {m : List (String × CacheEntry)}, k ∉ m.map Prod.fst → hmGet k m = none
  | [], _ => rfl
  | (a, b) :: rest, h => by
    have ha : a ≠ k := by
      intro hh
      exact h (by simp [hh])
    have hrest : k ∉ rest.map Prod.fst := by
      intro hh
      exact h (by simp [hh])
    simp [hmGet, ha, hmGet_not_mem hrest]

/-- Removing the key just inserted leaves no binding for it (for any
map a `HashMap` can denote, i.e. with distinct keys). -/
theorem hmGet_remove_insert (k : String) (v : CacheEntry) :
    ∀ {m : List (String × CacheEntry)}, (m.map Prod.fst).Nodup →
      hmGet k (hmRemove k (hmInsert k v m)) = none
  | [], _ => by simp [hmInsert, hmRemove, hmGet]
  | (a, b) :: rest, h => by
    have h' : a ∉ rest.map Prod.fst ∧ (rest.map Prod.fst).Nodup := by
      rw [List.map_cons, List.nodup_cons] at h
      exact h
    rcases h' with ⟨ha, hrest⟩
    by_cases hak : a = k
    · subst hak
      simp only [hmInsert, if_pos rfl, hmRemove, if_pos rfl]
      exact hmGet_not_mem ha
    · simp only [hmInsert, if_neg hak, hmRemove, if_neg hak]
      simp [hmGet, hak, hmGet_remove_insert k v hrest]

/-- C5: after `set` at instant `t0` (nanosecond ticks), the stored
entry's expiry is stamped exactly `t0 + 300 s`, and `get` at instant
`t` returns the value precisely while `t < t0 + 300 s` -- in
particular at every `t` with `t0 ≤ t < t0 + 300 s` -- and behaves as
absent at every `t ≥ t0 + 300 s`. -/
theorem cache_set_get_ttl (c : Cache) (t0 t : Int) (env name v : String) :
    hmGet (env ++ ":" ++ name) ((c.set t0 env name v).entries)
        = some { value := v, expires_at := t0 + ttlNs } ∧
      (c.set t0 env name v).get t env name
        = if t < t0 + ttlNs then some v else none := by
  have h := hmGet_insert (env ++ ":" ++ name)
    { value := v, expires_at := t0 + ttlNs } c.entries
  exact ⟨h, by simp [Cache.get, Cache.set, h]⟩

/-- C10: the cache key is built as `env ++ ":" ++ name` with no
escaping, so the distinct pairs `("a","b:c")` and `("a:b","c")` alias
one entry: after `set ("a","b:c")`, a `get ("a:b","c")` within the TTL
returns the value, and `delete ("a:b","c")` removes the entry written
for `("a","b:c")`. -/
theorem cache_key_aliasing (c : Cache) (t0 t : Int) (v : String)
    (hnodup : (c.entries.map Prod.fst).Nodup)
    (ht : t < t0 + ttlNs) :
    (c.set t0 "a" "b:c" v).get t "a:b" "c" = some v ∧
      hmGet ("a" ++ ":" ++ "b:c")
          (((c.set t0 "a" "b:c" v).delete "a:b" "c").entries) = none := by
  have hk : ("a:b" ++ ":" ++ "c" : String) = "a" ++ ":" ++ "b:c" := by decide
  constructor
  · have h := hmGet_insert ("a" ++ ":" ++ "b:c")
      { value := v, expires_at := t0 + ttlNs } c.entries
    simp only [Cache.get, Cache.set, hk, h]
    simp [ht]
  · simp only [Cache.delete, Cache.set, hk]
    exact hmGet_remove_insert _ _ hnodup

/-- Witness for C10 on the empty cache at write time 0, read time 1. -/
theorem cache_key_aliasing_witness :
    ((Cache.mk []).entries.map Prod.fst).Nodup ∧
      (1 : Int) < 0 + ttlNs ∧
      (((Cache.mk []).set 0 "a" "b:c" "secret").get 1 "a:b" "c" = some "secret" ∧
        hmGet ("a" ++ ":" ++ "b:c")
            ((((Cache.mk []).set 0 "a" "b:c" "secret").delete "a:b" "c").entries) = none) :=
  ⟨by simp, by decide,
    cache_key_aliasing (Cache.mk []) 0 1 "secret" (by simp) (by decide)⟩

/-! ## Claim theorems: the naming resolver -/

/-- Stripping an exact prefix succeeds and yields the remainder. -/
theorem stripPfxChars_append :
    ∀ (p s : List Char), stripPfxChars p (p ++ s) = some s
  | [], _ => rfl
  | c :: cs, s => by simp [stripPfxChars, stripPfxChars_append cs s]

/-- Splitting at the first dash of `a ++ '-' :: b` yields `(a, b)` when
`a` itself is dash-free. -/
theorem splitOnceDash_append :
    ∀ (a b : List Char), '-' ∉ a → splitOnceDash (a ++ '-' :: b) = some (a, b)
  | [], b, _ => by simp [splitOnceDash]
  | c :: cs, b, h => by
    have hc : c ≠ '-' := by
      intro hh
      exact h (by simp [hh])
    have hrest : '-' ∉ cs := by
      intro hh
      exact h (by simp [hh])
    simp [splitOnceDash, hc, splitOnceDash_append cs b hrest]

/-- C6: building a remote identifier from an environment and a name
that contain no `'-'` and parsing it back recovers the original pair. -/
theorem parse_build_roundtrip (cfg : Config) (env name : String)
    (henv : '-' ∉ env.data) (_hname : '-' ∉ name.data) :
    parse_secret_name cfg (build_secret_name cfg env name) = some (env, name) := by
  have hdata : (cfg.secretPfx ++ "-" ++ env ++ "-" ++ name).data
      = (cfg.secretPfx ++ "-").data ++ (env.data ++ '-' :: name.data) := by
    simp [String.data_append]
  rw [parse_secret_name, build_secret_name, hdata, stripPfxChars_append]
  simp only [splitOnceDash_append _ _ henv]

/-- Witness for C6 with prefix `k8s`, environment `dev`, name `db`. -/
theorem parse_build_roundtrip_witness :
    '-' ∉ ("dev" : String).data ∧ '-' ∉ ("db" : String).data ∧
      parse_secret_name ⟨"proj", "k8s"⟩ (build_secret_name ⟨"proj", "k8s"⟩ "dev" "db")
        = some ("dev", "db") :=
  ⟨by decide, by decide,
    parse_build_roundtrip ⟨"proj", "k8s"⟩ "dev" "db" (by decide) (by decide)⟩

/-! ## Claim theorems: the synchronisation engine -/

/-- C8: when the target namespace does not exist, `sync` aborts
immediately with the namespace-not-found error and its trace is the
single namespace-existence check -- no list, fetch or apply call is
made against the secret store. -/
theorem sync_namespace_absent (w : World) (environment : String)
    (nsOverride : Option String) (dry_run : Bool) (ns : String)
    (hns : ns = nsOverride.getD environment)
    (habsent : w.namespaceExists ns = Except.ok false) :
    executeSync w environment nsOverride dry_run
      = (Except.error (SyncError.namespaceNotFound ns), [Event.namespaceCheck ns]) := by
  subst hns
  simp [executeSync, habsent]

/-- A world whose cluster has no namespaces and whose store holds two
secrets for every environment. -/
def wNoNamespace : World where
  namespaceExists := fun _ => Except.ok false
  listSecrets := fun _ => Except.ok ["db-password", "api-key"]
  getSecret := fun _ _ => Except.ok "hunter2"
  applySecret := fun _ _ _ => Except.ok ()
  jp := fun _ => none
  yp := fun _ => none

/-- Witness for C8: missing namespace `dev`, two matched secrets. -/
theorem sync_namespace_absent_witness :
    ("dev" : String) = (Option.getD none "dev") ∧
      wNoNamespace.namespaceExists "dev" = Except.ok false ∧
      executeSync wNoNamespace "dev" none false
        = (Except.error (SyncError.namespaceNotFound "dev"), [Event.namespaceCheck "dev"]) :=
  ⟨rfl, rfl, sync_namespace_absent wNoNamespace "dev" none false "dev" rfl rfl⟩

/-- C9: a dry run over at least one matched secret performs the
namespace-existence check and the list call and nothing else: the
secrets are reported as skipped without any value fetch or any
delete/create apply call. -/
theorem sync_dry_run (w : World) (environment : String) (nsOverride : Option String)
    (secrets : List String) (ns : String)
    (hns : ns = nsOverride.getD environment)
    (hexists : w.namespaceExists ns = Except.ok true)
    (hlist : w.listSecrets environment = Except.ok secrets)
    (hne : secrets ≠ []) :
    executeSync w environment nsOverride true
      = (Except.ok (), [Event.namespaceCheck ns, Event.listSecrets environment]) := by
  subst hns
  have hloop : ∀ names, syncLoop w (nsOverride.getD environment) environment true names
      = (Except.ok (), []) := by
    intro names
    induction names with
    | nil => rfl
    | cons n rest ih => simp [syncLoop, ih]
  cases secrets with
  | nil => exact absurd rfl hne
  | cons a rest => simp [executeSync, hexists, hlist, hloop]

/-- A world with namespace `dev` present and two matched secrets. -/
def wDry : World where
  namespaceExists := fun ns => Except.ok (ns = "dev")
  listSecrets := fun _ => Except.ok ["db-password", "api-key"]
  getSecret := fun _ _ => Except.ok "hunter2"
  applySecret := fun _ _ _ => Except.ok ()
  jp := fun _ => none
  yp := fun _ => none

/-- Witness for C9: dry run over two matched secrets in `dev`. -/
theorem sync_dry_run_witness :
    ("dev" : String) = (Option.getD none "dev") ∧
      wDry.namespaceExists "dev" = Except.ok true ∧
      wDry.listSecrets "dev" = Except.ok ["db-password", "api-key"] ∧
      (["db-password", "api-key"] : List String) ≠ [] ∧
      executeSync wDry "dev" none true
        = (Except.ok (), [Event.namespaceCheck "dev", Event.listSecrets "dev"]) :=
  ⟨rfl, by simp [wDry], rfl, by simp,
    sync_dry_run wDry "dev" none ["db-password", "api-key"] "dev" rfl
      (by simp [wDry]) rfl (by simp)⟩

/-- The trace contributed by a successfully processed secret: its
value fetch followed by its apply. -/
def preEvents (w : World) (environment ns : String) (pre : List String) : List Event :=
  pre.flatMap (fun n =>
    [Event.getSecret environment n, Event.applySecret ns n (itemData w environment n)])

/-- Membership in the trace of successfully processed secrets. -/
theorem mem_preEvents {w : World} {environment ns : String} {pre : List String} {ev : Event} :
    ev ∈ preEvents w environment ns pre ↔
      ∃ n ∈ pre, ev = Event.getSecret environment n
        ∨ ev = Event.applySecret ns n (itemData w environment n) := by
  simp only [preEvents, List.mem_flatMap, List.mem_cons, List.mem_singleton,
    List.not_mem_nil, or_false]

/-- The per-secret loop is fail-fast: with every secret before `s`
succeeding and `s` failing, the loop stops at `s` with an error, the
trace being the fetch/apply pairs of the earlier secrets followed by
the calls made for `s` -- nothing of `post` is touched. -/
theorem syncLoop_fail (w : World) (ns environment : String) :
    ∀ (pre : List String) (s : String) (post : List String),
      (∀ n ∈ pre, itemSucceeds w environment ns n) →
      itemFails w environment ns s →
      ∃ err,
        syncLoop w ns environment false (pre ++ s :: post)
            = (Except.error err,
               preEvents w environment ns pre ++ [Event.getSecret environment s])
        ∨ syncLoop w ns environment false (pre ++ s :: post)
            = (Except.error err,
               preEvents w environment ns pre
                 ++ [Event.getSecret environment s,
                     Event.applySecret ns s (itemData w environment s)])
  | [], s, post, _, hfail => by
    rcases hfail with ⟨e, he⟩ | ⟨v, e, hv, ha⟩
    · exact ⟨SyncError.getFailed s e, Or.inl (by simp [syncLoop, he, preEvents])⟩
    · refine ⟨SyncError.applyFailed s e, Or.inr ?_⟩
      have hitem : itemData w environment s = detect w.jp w.yp v := by
        simp [itemData, hv, Except.toOption]
      simp [syncLoop, hv, ha, preEvents, hitem]
  | n :: pre', s, post, hpre, hfail => by
    rcases hpre n (by simp) with ⟨v, hv, ha⟩
    have hitem : itemData w environment n = detect w.jp w.yp v := by
      simp [itemData, hv, Except.toOption]
    rcases syncLoop_fail w ns environment pre' s post
        (fun m hm => hpre m (by simp [hm])) hfail with ⟨err, hcase | hcase⟩
    · refine ⟨err, Or.inl ?_⟩
      simp [syncLoop, hv, ha, hcase, preEvents, hitem]
    · refine ⟨err, Or.inr ?_⟩
      simp [syncLoop, hv, ha, hcase, preEvents, hitem]

/-- A fetch event in the successful-prefix trace names one of its
secrets. -/
theorem preEvents_get_name {w : World} {environment ns pre} {e n : String}
    (h : Event.getSecret e n ∈ preEvents w environment ns pre) : n ∈ pre := by
  rcases mem_preEvents.mp h with ⟨m, hm, heq | heq⟩
  · rcases Event.getSecret.inj heq with ⟨-, rfl⟩
    exact hm
  · exact absurd heq (by simp)

/-- An apply event in the successful-prefix trace names one of its
secrets. -/
theorem preEvents_apply_name {w : World} {environment ns pre} {ns' n : String} {d : FieldMap}
    (h : Event.applySecret ns' n d ∈ preEvents w environment ns pre) : n ∈ pre := by
  rcases mem_preEvents.mp h with ⟨m, hm, heq | heq⟩
  · exact absurd heq (by simp)
  · rcases Event.applySecret.inj heq with ⟨-, rfl, -⟩
    exact hm

/-- C7: any per-secret error aborts the run immediately.  With every
secret before `s` succeeding and `s` failing (at its fetch or at its
apply), the run returns an error; the trace ends at `s`: no secret
after `s` is fetched or applied, and the applies of the secrets before
`s` remain in the trace with no compensating call after them. -/
theorem sync_fail_fast (w : World) (environment : String) (nsOverride : Option String)
    (pre post : List String) (s : String) (ns : String)
    (hns : ns = nsOverride.getD environment)
    (hexists : w.namespaceExists ns = Except.ok true)
    (hlist : w.listSecrets environment = Except.ok (pre ++ s :: post))
    (hpre : ∀ n ∈ pre, itemSucceeds w environment ns n)
    (hfail : itemFails w environment ns s) :
    ∃ err evs,
      executeSync w environment nsOverride false = (Except.error err, evs) ∧
      (evs = [Event.namespaceCheck ns, Event.listSecrets environment]
           ++ preEvents w environment ns pre ++ [Event.getSecret environment s]
        ∨ evs = [Event.namespaceCheck ns, Event.listSecrets environment]
           ++ preEvents w environment ns pre
           ++ [Event.getSecret environment s,
               Event.applySecret ns s (itemData w environment s)]) ∧
      (∀ n ∈ pre, Event.applySecret ns n (itemData w environment n) ∈ evs) ∧
      (∀ n, Event.getSecret environment n ∈ evs → n ∈ pre ∨ n = s) ∧
      (∀ n d, Event.applySecret ns n d ∈ evs → n ∈ pre ∨ n = s) := by
  subst hns
  have hempty : (pre ++ s :: post).isEmpty = false := by
    cases pre <;> simp
  have hexec : executeSync w environment nsOverride false
      = ((syncLoop w (nsOverride.getD environment) environment false (pre ++ s :: post)).1,
         Event.namespaceCheck (nsOverride.getD environment)
           :: Event.listSecrets environment
           :: (syncLoop w (nsOverride.getD environment) environment false
                (pre ++ s :: post)).2) := by
    simp [executeSync, hexists, hlist, hempty]
  rcases syncLoop_fail w (nsOverride.getD environment) environment pre s post hpre hfail
    with ⟨err, hcase | hcase⟩
  · refine ⟨err,
      Event.namespaceCheck (nsOverride.getD environment) :: Event.listSecrets environment ::
        (preEvents w environment (nsOverride.getD environment) pre
          ++ [Event.getSecret environment s]), ?_, Or.inl (by simp), ?_, ?_, ?_⟩
    · rw [hexec, hcase]
    · intro n hn
      have hmem : Event.applySecret (nsOverride.getD environment) n (itemData w environment n)
          ∈ preEvents w environment (nsOverride.getD environment) pre :=
        mem_preEvents.mpr ⟨n, hn, Or.inr rfl⟩
      simp [hmem]
    · intro n hmem
      rcases List.mem_cons.mp hmem with h | hmem
      · exact absurd h (by simp)
      rcases List.mem_cons.mp hmem with h | hmem
      · exact absurd h (by simp)
      rcases List.mem_append.mp hmem with h | h
      · exact Or.inl (preEvents_get_name h)
      · have heq := List.mem_singleton.mp h
        rcases Event.getSecret.inj heq with ⟨-, rfl⟩
        exact Or.inr rfl
    · intro n d hmem
      rcases List.mem_cons.mp hmem with h | hmem
      · exact absurd h (by simp)
      rcases List.mem_cons.mp hmem with h | hmem
      · exact absurd h (by simp)
      rcases List.mem_append.mp hmem with h | h
      · exact Or.inl (preEvents_apply_name h)
      · exact absurd (List.mem_singleton.mp h) (by simp)
  · refine ⟨err,
      Event.namespaceCheck (nsOverride.getD environment) :: Event.listSecrets environment ::
        (preEvents w environment (nsOverride.getD environment) pre
          ++ [Event.getSecret environment s,
              Event.applySecret (nsOverride.getD environment) s
                (itemData w environment s)]), ?_, Or.inr (by simp), ?_, ?_, ?_⟩
    · rw [hexec, hcase]
    · intro n hn
      have hmem : Event.applySecret (nsOverride.getD environment) n (itemData w environment n)
          ∈ preEvents w environment (nsOverride.getD environment) pre :=
        mem_preEvents.mpr ⟨n, hn, Or.inr rfl⟩
      simp [hmem]
    · intro n hmem
      rcases List.mem_cons.mp hmem with h | hmem
      · exact absurd h (by simp)
      rcases List.mem_cons.mp hmem with h | hmem
      · exact absurd h (by simp)
      rcases List.mem_append.mp hmem with h | h
      · exact Or.inl (preEvents_get_name h)
      · rcases List.mem_cons.mp h with heq | h
        · rcases Event.getSecret.inj heq with ⟨-, rfl⟩
          exact Or.inr rfl
        · exact absurd (List.mem_singleton.mp h) (by simp)
    · intro n d hmem
      rcases List.mem_cons.mp hmem with h | hmem
      · exact absurd h (by simp)
      rcases List.mem_cons.mp hmem with h | hmem
      · exact absurd h (by simp)
      rcases List.mem_append.mp hmem with h | h
      · exact Or.inl (preEvents_apply_name h)
      · rcases List.mem_cons.mp h with heq | h
        · exact absurd heq (by simp)
        · have heq := List.mem_singleton.mp h
          rcases Event.applySecret.inj heq with ⟨-, rfl, -⟩
          exact Or.inr rfl

/-- A world where fetching secret `beta` fails while `alpha` and
`gamma` would succeed. -/
def wFail : World where
  namespaceExists := fun ns => Except.ok (ns = "dev")
  listSecrets := fun _ => Except.ok ["alpha", "beta", "gamma"]
  getSecret := fun _ n => if n = "beta" then Except.error "boom" else Except.ok "hunter2"
  applySecret := fun _ _ _ => Except.ok ()
  jp := fun _ => none
  yp := fun _ => none

/-- Witness for C7: `alpha` succeeds, `beta` fails at its fetch,
`gamma` is never touched. -/
theorem sync_fail_fast_witness :
    ("dev" : String) = (Option.getD none "dev") ∧
      wFail.namespaceExists "dev" = Except.ok true ∧
      wFail.listSecrets "dev" = Except.ok (["alpha"] ++ "beta" :: ["gamma"]) ∧
      (∀ n ∈ ["alpha"], itemSucceeds wFail "dev" "dev" n) ∧
      itemFails wFail "dev" "dev" "beta" ∧
      (∃ err evs,
        executeSync wFail "dev" none false = (Except.error err, evs) ∧
        (evs = [Event.namespaceCheck "dev", Event.listSecrets "dev"]
             ++ preEvents wFail "dev" "dev" ["alpha"] ++ [Event.getSecret "dev" "beta"]
          ∨ evs = [Event.namespaceCheck "dev", Event.listSecrets "dev"]
             ++ preEvents wFail "dev" "dev" ["alpha"]
             ++ [Event.getSecret "dev" "beta",
                 Event.applySecret "dev" "beta" (itemData wFail "dev" "beta")]) ∧
        (∀ n ∈ ["alpha"], Event.applySecret "dev" n (itemData wFail "dev" n) ∈ evs) ∧
        (∀ n, Event.getSecret "dev" n ∈ evs → n ∈ ["alpha"] ∨ n = "beta") ∧
        (∀ n d, Event.applySecret "dev" n d ∈ evs → n ∈ ["alpha"] ∨ n = "beta")) := by
  have hsucc : ∀ n ∈ ["alpha"], itemSucceeds wFail "dev" "dev" n := by
    intro n hn
    have hn' : n = "alpha" := by simpa using hn
    subst hn'
    exact ⟨"hunter2", rfl, rfl⟩
  have hfails : itemFails wFail "dev" "dev" "beta" := Or.inl ⟨"boom", rfl⟩
  exact ⟨rfl, rfl, rfl, hsucc, hfails,
    sync_fail_fast wFail "dev" none ["alpha"] ["gamma"] "beta" "dev" rfl
      rfl rfl hsucc hfails⟩
